import Mathlib

/-!
Shallow embedding of the record-normalization and table-rendering engine of
`mt_nodes_list.py` (functions `human_time`, `flatten_dict`, `clean_name`,
`normalize_node`, `print_table`), together with theorems settling the frozen
claims about it.

Python values are modelled by the inductive `PyVal`; Python dicts by
insertion-ordered association lists built with `dset` (later assignment to an
existing key updates the value in place, a new key is appended).  Fallible
Python code (an uncaught exception) is modelled by `Option`: `none` means the
exception propagates to the caller.
-/

/-- Model of the Python values flowing through the engine: `None`, booleans,
integers, strings, lists and dicts.  Binary floating point is not modelled as
its own constructor; numeric strings stand in for floats where they occur. -/
inductive PyVal : Type where
  | vnone : PyVal
  | vbool : Bool → PyVal
  | vint : Int → PyVal
  | vstr : String → PyVal
  | vlist : List PyVal → PyVal
  | vdict : List (String × PyVal) → PyVal

/-- A flattened row / coerced record: a Python dict as an insertion-ordered
association list from string keys to values. -/
abbrev PyDict := List (String × PyVal)

/-- Python truthiness (`bool(v)`): `None`, `False`, `0`, `""`, `[]`, `{}` are
falsy, everything else truthy. -/
def pyTruthy : PyVal → Bool
  | .vnone => false
  | .vbool b => b
  | .vint n => n != 0
  | .vstr s => s != ""
  | .vlist xs => !xs.isEmpty
  | .vdict xs => !xs.isEmpty

/-- Python comparison `v == 0`: true for the integer `0` and for `False`
(booleans compare numerically), false for every other value. -/
def pyEqZero : PyVal → Bool
  | .vint n => n == 0
  | .vbool b => !b
  | _ => false

/-- Python comparison `v == s` against a string literal: only a string value
can compare equal to a string. -/
def pyEqStr (v : PyVal) (s : String) : Bool :=
  match v with
  | .vstr t => t == s
  | _ => false

/-- Fueled decimal digit extraction, least significant digit first; the fuel
only bounds the recursion depth and `n` itself always suffices (a number has
no more decimal digits than its own value). -/
def natDigitsRevFuel : Nat → Nat → List Char
  | 0, _ => []
  | fuel + 1, n =>
    if n = 0 then [] else Char.ofNat (48 + n % 10) :: natDigitsRevFuel fuel (n / 10)

/-- Decimal digits of a natural number, least significant first (empty for
zero). -/
def natDigitsRev (n : Nat) : List Char := natDigitsRevFuel n n

/-- Decimal rendering of a natural number (model of Python `str` on a
non-negative int, and the digits of `f"{idx:03d}"`). -/
def natDec (n : Nat) : String :=
  if n = 0 then "0" else String.mk (natDigitsRev n).reverse

/-- Decimal rendering of an integer (Python `str` on an int). -/
def intDec (n : Int) : String :=
  if n < 0 then "-" ++ natDec n.natAbs else natDec n.natAbs

/-- Python whitespace (the characters `str.split` / `str.strip` treat as
separators, and the surrounding whitespace `int()` / `float()` ignore). -/
def isPyWs (c : Char) : Bool :=
  c == ' ' || c == '\t' || c == '\n' || c == '\r' || c == '\x0b' || c == '\x0c'

/-- Value of a run of decimal digits. -/
def digitsVal (ds : List Char) : Nat :=
  ds.foldl (fun acc c => acc * 10 + (c.toNat - 48)) 0

/-- Python `int(...)` applied to a string: optional surrounding whitespace,
an optional sign, then a non-empty run of decimal digits with single
underscores allowed between digits; anything else raises `ValueError`
(`none`). -/
def pyIntOfChars (l : List Char) : Option Int :=
  let l1 := (l.dropWhile isPyWs).reverse.dropWhile isPyWs |>.reverse
  let core : List Char → Option Nat := fun ds =>
    if ds.isEmpty then none
    else if !ds.all (fun c => c.isDigit || c == '_') then none
    else if ds.head? = some '_' ∨ ds.getLast? = some '_' then none
    else if (ds.zip ds.tail).any (fun p => p.1 == '_' && p.2 == '_') then none
    else some (digitsVal (ds.filter Char.isDigit))
  match l1 with
  | '-' :: rest => (core rest).map (fun n => -(n : Int))
  | '+' :: rest => (core rest).map (fun n => (n : Int))
  | rest => (core rest).map (fun n => (n : Int))

/-- Python `int(v)` coercion: identity on ints, `0`/`1` on booleans, strict
decimal parse on strings, `TypeError` (`none`) on `None`, lists and dicts. -/
def pyIntCoerce : PyVal → Option Int
  | .vint n => some n
  | .vbool b => some (if b then 1 else 0)
  | .vstr s => pyIntOfChars s.data
  | _ => none

mutual
/-- Model of `json.dumps(v, ensure_ascii=False)`: compact JSON with the
default `", "` / `": "` separators; string escaping is modelled for the
quote and backslash only (control-character escapes are not modelled, and no
value reaching this point contains them in the claims below). -/
def pyJson : PyVal → String
  | .vnone => "null"
  | .vbool b => if b then "true" else "false"
  | .vint n => intDec n
  | .vstr s => "\"" ++ jsonEscape s.data ++ "\""
  | .vlist xs => "[" ++ pyJsonList xs ++ "]"
  | .vdict xs => "\x7b" ++ pyJsonEntries xs ++ "\x7d"

/-- JSON escaping of the characters of a string (quote and backslash). -/
def jsonEscape : List Char → String
  | [] => ""
  | c :: cs =>
    (if c = '\"' then "\\\"" else if c = '\\' then "\\\\" else String.mk [c])
      ++ jsonEscape cs

/-- Comma-separated JSON renderings of list elements. -/
def pyJsonList : List PyVal → String
  | [] => ""
  | [x] => pyJson x
  | x :: y :: xs => pyJson x ++ ", " ++ pyJsonList (y :: xs)

/-- Comma-separated JSON renderings of dict entries. -/
def pyJsonEntries : List (String × PyVal) → String
  | [] => ""
  | [(k, v)] => "\"" ++ jsonEscape k.data ++ "\": " ++ pyJson v
  | (k, v) :: e :: xs =>
      "\"" ++ jsonEscape k.data ++ "\": " ++ pyJson v ++ ", " ++ pyJsonEntries (e :: xs)
end

/-- Model of Python `str(v)` for the scalar values the engine renders.
Containers are rendered in their JSON form (Python `repr` would use single
quotes; no claim depends on the container rendering, only on the fact that it
is a fixed deterministic string). -/
def pyStr : PyVal → String
  | .vnone => "None"
  | .vbool b => if b then "True" else "False"
  | .vint n => intDec n
  | .vstr s => s
  | v => pyJson v

/-- Dict lookup, `d[k]`-style: the entry with the key, if any. -/
def dget : PyDict → String → Option PyVal
  | [], _ => none
  | (k0, v0) :: rest, k => if k0 = k then some v0 else dget rest k

/-- Dict lookup with default, Python `d.get(k, dflt)`. -/
def dgetD (d : PyDict) (k : String) (dflt : PyVal) : PyVal :=
  (dget d k).getD dflt

/-- Python `k in d`. -/
def dHasKey : PyDict → String → Bool
  | [], _ => false
  | (k0, _) :: rest, k => k0 == k || dHasKey rest k

/-- Python `d[k] = v`: updates the first entry with key `k` in place, or
appends a fresh entry at the end. -/
def dset (d : PyDict) (k : String) (v : PyVal) : PyDict :=
  match d with
  | [] => [(k, v)]
  | (k0, v0) :: rest =>
      if k0 = k then (k0, v) :: rest else (k0, v0) :: dset rest k v

/-- Builds a Python dict from an entry list (`dict(items)`): first occurrence
of a key fixes its position, later occurrences update the value. -/
def dedupKeys (l : PyDict) : PyDict :=
  l.foldl (fun acc e => dset acc e.fst e.snd) []

/-! ## Calendar model

`datetime.fromtimestamp` / `datetime(...).timestamp()` convert between epoch
seconds and local civil time.  The embedding models the local timezone as a
fixed zero offset (UTC); the civil-date conversion is the standard Gregorian
algorithm.  `datetime` accepts years 1..9999; outside that range
`fromtimestamp` raises, which `human_time` catches. -/

/-- Civil date (year, month, day) of a day count relative to 1970-01-01. -/
def civilFromDays (z0 : Int) : Int × Int × Int :=
  let z := z0 + 719468
  let era := Int.fdiv z 146097
  let doe := z - era * 146097
  let yoe := (doe - doe / 1460 + doe / 36524 - doe / 146096) / 365
  let y := yoe + era * 400
  let doy := doe - (365 * yoe + yoe / 4 - yoe / 100)
  let mp := (5 * doy + 2) / 153
  let d := doy - (153 * mp + 2) / 5 + 1
  let m := mp + (if mp < 10 then 3 else -9)
  (y + (if m ≤ 2 then 1 else 0), m, d)

/-- Day count relative to 1970-01-01 of a civil date. -/
def daysFromCivil (y0 m d : Int) : Int :=
  let y := y0 - (if m ≤ 2 then 1 else 0)
  let era := Int.fdiv y 400
  let yoe := y - era * 400
  let doy := (153 * (m + (if 2 < m then -3 else 9)) + 2) / 5 + d - 1
  let doe := yoe * 365 + yoe / 4 - yoe / 100 + doy
  era * 146097 + doe - 719468

/-- Gregorian leap-year test. -/
def isLeap (y : Int) : Bool :=
  (y % 4 == 0 && y % 100 != 0) || y % 400 == 0

/-- Days in a month of a given year. -/
def daysInMonth (y m : Int) : Int :=
  if m = 2 then (if isLeap y then 29 else 28)
  else if m = 4 ∨ m = 6 ∨ m = 9 ∨ m = 11 then 30
  else 31

/-- Epoch-second range covered by `datetime` years 1..9999 (at UTC offset
zero): `0001-01-01 00:00:00` to `9999-12-31 23:59:59`. -/
def validEpoch (n : Int) : Bool :=
  -62135596800 ≤ n && n ≤ 253402300799

/-- Two-digit zero-padded rendering of a non-negative field (`%d`, `%m`,
`%H`, `%M`, `%S`). -/
def fmt2 (n : Int) : String :=
  if n < 10 then "0" ++ intDec n else intDec n

/-- Four-digit zero-padded year (`%Y`). -/
def fmt4 (n : Int) : String :=
  let s := intDec n
  String.mk (List.replicate (4 - s.length) '0') ++ s

/-- The `%d/%m/%Y` date part of the rendering of an epoch timestamp. -/
def fmtDate (ts : Int) : String :=
  let c := civilFromDays (Int.fdiv ts 86400)
  fmt2 c.2.2 ++ "/" ++ fmt2 c.2.1 ++ "/" ++ fmt4 c.1

/-- The `%H:%M:%S` time part of the rendering of an epoch timestamp. -/
def fmtTime (ts : Int) : String :=
  let secs := ts - Int.fdiv ts 86400 * 86400
  fmt2 (secs / 3600) ++ ":" ++ fmt2 ((secs % 3600) / 60) ++ ":" ++ fmt2 (secs % 60)

/-- `datetime.fromtimestamp(ts).strftime("%d/%m/%Y %H:%M:%S")` at UTC
offset zero. -/
def fmtDateTime (ts : Int) : String :=
  fmtDate ts ++ " " ++ fmtTime ts

/-- The numeric values `datetime.fromtimestamp` accepts: ints and booleans
(numbers); strings, `None` and containers raise `TypeError`. -/
def pyNumVal : PyVal → Option Int
  | .vint n => some n
  | .vbool b => some (if b then 1 else 0)
  | _ => none

/-- `human_time` from the source: `None` or a value comparing equal to `0`
yields `"-"`; a numeric value in `datetime` range is formatted
`%d/%m/%Y %H:%M:%S`; any conversion failure falls back to `str(ts)`. -/
def human_time (ts : PyVal) : String :=
  match ts with
  | .vnone => "-"
  | _ =>
    if pyEqZero ts then "-"
    else
      match pyNumVal ts with
      | some n => if validEpoch n then fmtDateTime n else pyStr ts
      | none => pyStr ts

/-- `str.strip()` on a character list. -/
def pyStripChars (l : List Char) : List Char :=
  ((l.dropWhile isPyWs).reverse.dropWhile isPyWs).reverse

/-- Accumulator pass of `str.split()`: whitespace runs separate tokens, no
empty tokens are produced. -/
def wsTokensAux : List Char → List Char → List (List Char)
  | [], cur => if cur.isEmpty then [] else [cur.reverse]
  | c :: cs, cur =>
    if isPyWs c then
      (if cur.isEmpty then wsTokensAux cs [] else cur.reverse :: wsTokensAux cs [])
    else wsTokensAux cs (c :: cur)

/-- Python `s.split()` (split on whitespace runs). -/
def pySplitWs (s : String) : List String :=
  (wsTokensAux s.data []).map String.mk

/-- The character class kept by `re.sub(r'[^a-zA-Z0-9 _\.-]', '', name)`:
ASCII letters, digits, space, underscore, dot, hyphen. -/
def allowedChar (c : Char) : Bool :=
  c.isAlpha || c.isDigit || c == ' ' || c == '_' || c == '.' || c == '-'

/-- The truncation `if len(name) > 35: name = name[:35]`. -/
def trunc35 (l : List Char) : List Char :=
  if 35 < l.length then l.take 35 else l

/-- `ljust` on characters: pad on the right with spaces up to the width
(content already at least that long is unchanged). -/
def padChars (l : List Char) (n : Nat) : List Char :=
  l ++ List.replicate (n - l.length) ' '

/-- `clean_name` from the source: empty (falsy) input yields 35 spaces;
otherwise strip disallowed characters, trim surrounding whitespace, truncate
to 35, left-justify (pad right with spaces) to exactly 35. -/
def clean_name (name : String) : String :=
  if name = "" then String.mk (padChars [] 35)
  else String.mk (padChars (trunc35 (pyStripChars (name.data.filter allowedChar))) 35)

/-- The call `clean_name(name)` on an arbitrary Python value: a falsy value
takes the early `if not name` branch (35 spaces); a truthy string goes
through `clean_name`; a truthy non-string makes `re.sub` raise `TypeError`,
which `normalize_node` does not catch (`none`). -/
def clean_name_py (v : PyVal) : Option String :=
  if !pyTruthy v then some (String.mk (List.replicate 35 ' '))
  else match v with
    | .vstr s => some (clean_name s)
    | _ => none

/-- Fueled item collection of `flatten_dict`: nested dicts recurse with the
`parent + sep + key` prefix, lists and tuples are serialized with
`json.dumps`, scalars are copied unchanged.  One unit of fuel is spent per
dict nesting level, modelling the CPython recursion limit (about a thousand
stack frames); `none` models the `RecursionError` raised on deeper
nesting. -/
def flattenFuel : Nat → String → String → List (String × PyVal) → Option PyDict
  | 0, _, _, _ => none
  | fuel + 1, parent, sep, entries =>
    entries.foldr
      (fun e acc =>
        match acc with
        | none => none
        | some accl =>
          let nk := if parent = "" then e.1 else parent ++ sep ++ e.1
          match e.2 with
          | .vdict d =>
            match flattenFuel fuel nk sep d with
            | none => none
            | some inner => some (inner ++ accl)
          | .vlist xs => some ((nk, .vstr (pyJson (.vlist xs))) :: accl)
          | x => some ((nk, x) :: accl))
      (some [])

/-- `flatten_dict` from the source (with the default separator `_`): the
collected items turned into a dict; `none` models `RecursionError` on
nesting beyond the interpreter recursion limit. -/
def flatten_dict (d : List (String × PyVal)) : Option PyDict :=
  (flattenFuel 1000 "" "_" d).map dedupKeys

/-- The record-coercion prelude of `normalize_node`: a mapping is taken as
is (PyVal dicts model Python dicts, `dict(node)` copies); for any other
modelled value `dict(node)` raises, and the `dir`-based attribute scrape
finds no public non-callable data attributes on the modelled scalar and
container values, leaving the empty dict. -/
def coerceRecord : PyVal → PyDict
  | .vdict d => dedupKeys d
  | _ => []

/-- `f"{float(v):.2f}"`: Python float coercion followed by fixed two-decimal
formatting.  Decimal strings are parsed exactly and rounded half-to-even to
hundredths (the binary floating-point representation is abstracted away;
exponents and the special values are not modelled). `None` and containers
raise (`none`). -/
def pyFloatFmt2 (v : PyVal) : Option String :=
  let fmtCenti : Int → String := fun c =>
    let a := c.natAbs
    (if c < 0 then "-" else "") ++ natDec (a / 100) ++ "." ++
      (if a % 100 < 10 then "0" else "") ++ natDec (a % 100)
  match v with
  | .vint n => some (fmtCenti (n * 100))
  | .vbool b => some (fmtCenti (if b then 100 else 0))
  | .vstr s =>
    let l := (s.data.dropWhile isPyWs).reverse.dropWhile isPyWs |>.reverse
    let signed : Bool × List Char :=
      match l with
      | '-' :: rest => (true, rest)
      | '+' :: rest => (false, rest)
      | rest => (false, rest)
    let ip := signed.2.takeWhile Char.isDigit
    let rest1 := signed.2.dropWhile Char.isDigit
    let frac : Option (List Char) :=
      match rest1 with
      | [] => some []
      | '.' :: fs => if fs.all Char.isDigit then some fs else none
      | _ => none
    match frac with
    | none => none
    | some fp =>
      if ip.isEmpty && fp.isEmpty then none
      else
        let digitsVal : List Char → Nat := fun ds =>
          ds.foldl (fun acc c => acc * 10 + (c.toNat - 48)) 0
        let num : Nat := digitsVal (ip ++ fp)
        let den : Nat := 10 ^ fp.length
        let scaled := num * 100
        let q := scaled / den
        let r := scaled % den
        let rounded : Nat :=
          if 2 * r < den then q
          else if den < 2 * r then q + 1
          else if q % 2 = 0 then q else q + 1
        some (fmtCenti (if signed.1 then -(rounded : Int) else (rounded : Int)))
  | _ => none

/-- The `lastHeard` block of `normalize_node`: when the coerced record has a
`lastHeard` key, store its human rendering, then re-order it by splitting on
whitespace and joining `tmp[1] + " " + tmp[0]`; fewer than two tokens makes
`tmp[1]` raise `IndexError` (`none`). -/
def stepLastHeard (d flat : PyDict) : Option PyDict :=
  if dHasKey d "lastHeard" then
    let lh := human_time (dgetD d "lastHeard" .vnone)
    let flat1 := dset flat "lastHeard_human" (.vstr lh)
    match pySplitWs lh with
    | t0 :: t1 :: _ => some (dset flat1 "lastHeard_human" (.vstr (t1 ++ " " ++ t0)))
    | _ => none
  else some flat

/-- The name block of `normalize_node`: `longName` or `shortName` of a
dict-valued `user` (first truthy wins, else `""`), cleaned; a non-dict
`user` value exposes no such attributes in this model, so the chain falls
through to `""`; a record without `user` gets 35 spaces directly. -/
def nameFor (d : PyDict) : Option String :=
  if dHasKey d "user" then
    match dgetD d "user" .vnone with
    | .vdict ud =>
      let u := dedupKeys ud
      let n1 := dgetD u "longName" .vnone
      let raw :=
        if pyTruthy n1 then n1
        else
          let n2 := dgetD u "shortName" .vnone
          if pyTruthy n2 then n2 else .vstr ""
      clean_name_py raw
    | _ => clean_name_py (.vstr "")
  else some (String.mk (List.replicate 35 ' '))

/-- The `viaHop` block of `normalize_node`: `int(flat.get("hopsAway"))` with
`None` and parse failures giving `0`; stores whether it is positive. -/
def stepViaHop (flat2 : PyDict) : PyDict :=
  let hopsInt : Int :=
    match dget flat2 "hopsAway" with
    | none => 0
    | some .vnone => 0
    | some v => (pyIntCoerce v).getD 0
  dset flat2 "viaHop" (.vbool (decide (0 < hopsInt)))

/-- The `snr` block of `normalize_node`: an existing `snr` value is
reformatted to two decimals, with any failure replaced by `""`. -/
def stepSnr (flat3 : PyDict) : PyDict :=
  if dHasKey flat3 "snr" then
    dset flat3 "snr" (.vstr ((pyFloatFmt2 (dgetD flat3 "snr" .vnone)).getD ""))
  else flat3

/-- `normalize_node` from the source.  The result is `none` exactly when the
function raises: the fixed-index split of `lastHeard_human` (`tmp[1]`) on a
fewer-than-two-token value raises `IndexError`, and `clean_name` on a truthy
non-string name raises `TypeError`; every other step degrades to a default. -/
def normalize_node (node : PyVal) : Option PyDict :=
  let d := coerceRecord node
  match flatten_dict d with
  | none => none
  | some flat =>
    match stepLastHeard d flat with
    | none => none
    | some flat1 =>
      match nameFor d with
      | none => none
      | some nm => some (stepSnr (stepViaHop (dset flat1 "name" (.vstr nm))))

/-! ## Table renderer -/

/-- One-or-two digit numeric field of the `strptime` model, bounded to
`lo..hi` (the `TimeRE` regexes accept one or two digits and the bound). -/
def num2 (lo hi : Nat) (l : List Char) : Option (Nat × List Char) :=
  let ds := l.takeWhile Char.isDigit
  let rest := l.dropWhile Char.isDigit
  if ds.length = 0 ∨ 2 < ds.length then none
  else
    let v := digitsVal ds
    if lo ≤ v ∧ v ≤ hi then some (v, rest) else none

/-- Literal character of the `strptime` model. -/
def litChar (c : Char) : List Char → Option (List Char)
  | [] => none
  | x :: xs => if x = c then some xs else none

/-- One-or-more whitespace characters (a space in a `strptime` format
matches a whitespace run). -/
def ws1 : List Char → Option (List Char)
  | [] => none
  | x :: xs => if isPyWs x then some (xs.dropWhile isPyWs) else none

/-- `datetime.strptime(val, "%H:%M:%S %d/%m/%Y").timestamp()` at UTC offset
zero: full-string match, bounded fields, calendar-valid date, year at least
1; any failure raises `ValueError` (`none`). -/
def strptimeTsKey (s : String) : Option Int := do
  let l := s.data
  let (hh, l) ← num2 0 23 l
  let l ← litChar ':' l
  let (mi, l) ← num2 0 59 l
  let l ← litChar ':' l
  let (ss, l) ← num2 0 61 l
  let l ← ws1 l
  let (dd, l) ← num2 1 31 l
  let l ← litChar '/' l
  let (mo, l) ← num2 1 12 l
  let l ← litChar '/' l
  let yd := l.takeWhile Char.isDigit
  let l := l.dropWhile Char.isDigit
  if yd.length ≠ 4 then none
  else
    let y := digitsVal yd
    if !l.isEmpty then none
    else if y < 1 then none
    else if 59 < ss then none
    else if daysInMonth (y : Int) (mo : Int) < (dd : Int) then none
    else
      some (daysFromCivil (y : Int) (mo : Int) (dd : Int) * 86400 +
        (hh : Int) * 3600 + (mi : Int) * 60 + (ss : Int))

/-- The recency sort key `ts_key` of `print_table`: the placeholder `-`, a
blank value, a non-string value (whose `.strip()` raises) and a parse
failure all key as `0`; otherwise the parsed epoch timestamp. -/
def ts_key (r : PyDict) : Int :=
  match dgetD r "lastHeard_human" (.vstr "-") with
  | .vstr val =>
    if val = "-" ∨ (pyStripChars val.data).isEmpty then 0
    else (strptimeTsKey val).getD 0
  | _ => 0

/-- The hop sort key `hop_key` of `print_table`: `int(r.get("hopsAway", 0))`
with any exception giving `0`. -/
def hop_key (r : PyDict) : Int :=
  (pyIntCoerce (dgetD r "hopsAway" (.vint 0))).getD 0

/-- The in-place `rows.sort(...)` of `print_table`: stable ascending by
`hop_key` when sorting by hop, stable descending by `ts_key` otherwise.
Python uses a stable sort; a stable sort with respect to a total preorder
is unique, so the stable insertion sort yields the identical list. -/
def sortRows (rows : List PyDict) (sort_hop : Bool) : List PyDict :=
  if sort_hop then rows.insertionSort (fun a b => hop_key a ≤ hop_key b)
  else rows.insertionSort (fun a b => ts_key b ≤ ts_key a)

/-- Union of the keys of all rows in first-seen order (the `headers` set of
`print_table`; the set is sorted before use, so only membership matters). -/
def collectKeys (rows : List PyDict) : List String :=
  rows.foldl
    (fun acc r =>
      r.foldl (fun a e => if a.contains e.fst then a else a ++ [e.fst]) acc)
    []

/-- Code-point comparison of strings (Python `str` ordering used by
`sorted`). -/
def strLeChars : List Char → List Char → Bool
  | [], _ => true
  | _ :: _, [] => false
  | a :: as, b :: bs =>
    if a.val < b.val then true
    else if b.val < a.val then false
    else strLeChars as bs

/-- String comparison lifted from `strLeChars`. -/
def strLe (a b : String) : Bool := strLeChars a.data b.data

/-- The fixed compact-mode column list of `print_table`. -/
def compactHeaders : List String :=
  ["#", "user_id", "user_hwModel", "name", "hopsAway", "snr",
   "position_latitude", "position_longitude", "lastHeard_human"]

/-- Column selection of `print_table`: the fixed compact list, or `#`
followed by the sorted key union. -/
def headersFor (rows : List PyDict) (compact : Bool) : List String :=
  if compact then compactHeaders
  else "#" :: (collectKeys rows).insertionSort (fun a b => strLe a b = true)

/-- `max((len(str(r.get(h, ""))) for r in rows), default=0)`. -/
def maxContentLen (rows : List PyDict) (h : String) : Nat :=
  (rows.map (fun r => (pyStr (dgetD r h (.vstr ""))).length)).foldr max 0

/-- Column-width computation of `print_table`: `#` is fixed at 5, `name` at
35, every other column is `max(maxlen, header_len) + 2`. -/
def colWidth (rows : List PyDict) (h : String) : Nat :=
  if h = "#" then 5
  else if h = "name" then 35
  else max (maxContentLen rows h) h.length + 2

/-- A run of spaces. -/
def spaces (n : Nat) : String := String.mk (List.replicate n ' ')

/-- Python `f"{val:<{w}}"`: left-justify, padding with spaces on the right;
content longer than the width is left unchanged. -/
def ljust (s : String) (w : Nat) : String := s ++ spaces (w - s.length)

/-- Python `f"{idx:03d}"` for the row counter: zero-pad to at least three
digits. -/
def idxFmt (idx : Nat) : String :=
  let s := natDec idx
  String.mk (List.replicate (3 - s.length) '0') ++ s

/-- Python `"".join(parts)`. -/
def sjoin (l : List String) : String := l.foldr (· ++ ·) ""

/-- The highlight escape opening of `print_table` (`\033[42m\033[97m`). -/
def escOn : String := "\x1b[42m\x1b[97m"

/-- The highlight escape closing of `print_table` (`\033[0m`). -/
def escOff : String := "\x1b[0m"

/-- The highlight condition of `print_table`:
`str(r.get("hopsAway", "0")) == "0" and r.get("snr", "") != ""`. -/
def rowHighlight (r : PyDict) : Bool :=
  pyStr (dgetD r "hopsAway" (.vstr "0")) == "0" &&
    !pyEqStr (dgetD r "snr" (.vstr "")) ""

/-- One cell of a data line: the `#` column renders the zero-padded index, a
non-empty `snr` gains two extra trailing spaces before justification, every
other cell is the stringified value left-justified to the column width. -/
def cellFor (w : String → Nat) (idx : Nat) (r : PyDict) (h : String) : String :=
  if h = "#" then ljust (idxFmt idx) (w h)
  else if h = "snr" && !pyEqStr (dgetD r "snr" (.vstr "")) "" then
    ljust (pyStr (dgetD r h (.vstr "")) ++ "  ") (w h)
  else ljust (pyStr (dgetD r h (.vstr ""))) (w h)

/-- One data line of `print_table`: the joined cells, wrapped in the escape
pair when the highlight condition holds. -/
def renderRow (headers : List String) (w : String → Nat) (idx : Nat) (r : PyDict) : String :=
  let line := sjoin (headers.map (cellFor w idx r))
  if rowHighlight r then escOn ++ line ++ escOff else line

/-- 1-based enumeration (`enumerate(rows, start=1)`). -/
def enumFrom {α : Type} (n : Nat) : List α → List (Nat × α)
  | [] => []
  | x :: xs => (n, x) :: enumFrom (n + 1) xs

/-- The normalization loop of `print_table` (`for node in nodes.values()`):
one flat row per record, an exception aborting the whole batch. -/
def normalizeAll : List PyVal → Option (List PyDict)
  | [] => some []
  | n :: ns =>
    match normalize_node n, normalizeAll ns with
    | some r, some rs => some (r :: rs)
    | _, _ => none

/-- `print_table` from the source, as the list of lines written to standard
output: one empty line (`print("")`), the header line, the `=` separator of
the header length, then one line per row in sorted order.  `none` models an
exception escaping from `normalize_node` before anything is printed. -/
def print_table (nodes : List PyVal) (compact sort_hop : Bool) : Option (List String) :=
  match normalizeAll nodes with
  | none => none
  | some rows0 =>
    let rows := sortRows rows0 sort_hop
    let headers := headersFor rows0 compact
    let w := colWidth rows
    let headerLine := sjoin (headers.map (fun h => ljust h (w h)))
    let sep := String.mk (List.replicate headerLine.length '=')
    some ("" :: headerLine :: sep ::
      (enumFrom 1 rows).map (fun p => renderRow headers w p.fst p.snd))

/-- The column-width rule in the words of the specification: width is
`max(header length, max content length across all rows) + 2`, except the `#`
column is fixed at 5 and the `name` column at 35. -/
def specColWidth (rows : List PyDict) (h : String) : Nat :=
  if h = "#" then 5
  else if h = "name" then 35
  else max h.length (maxContentLen rows h) + 2

/-- Whether a rendered line begins with the highlight escape opening. -/
def escStart (s : String) : Prop :=
  s.data.take escOn.data.length = escOn.data

instance (s : String) : Decidable (escStart s) := by
  unfold escStart; infer_instance

/-- Removes the highlight escape pair from a rendered line when both the
opening and the closing are present; other lines are returned unchanged. -/
def stripStyle (s : String) : String :=
  if s.data.take escOn.data.length = escOn.data ∧
      s.data.drop (s.data.length - escOff.data.length) = escOff.data then
    String.mk ((s.data.drop escOn.data.length).take
      (s.data.length - escOn.data.length - escOff.data.length))
  else s

/-! ## Helper lemmas -/

theorem length_spaces (n : Nat) : (spaces n).length = n := by
  rw [spaces, String.length_mk, List.length_replicate]

theorem length_ljust (s : String) (w : Nat) :
    (ljust s w).length = s.length + (w - s.length) := by
  rw [ljust, String.length_append, length_spaces]

theorem length_ljust_of_le {s : String} {w : Nat} (h : s.length ≤ w) :
    (ljust s w).length = w := by
  rw [length_ljust]; omega

theorem sjoin_cons (s : String) (l : List String) :
    sjoin (s :: l) = s ++ sjoin l := rfl

theorem length_sjoin (l : List String) :
    (sjoin l).length = (l.map String.length).sum := by
  induction l with
  | nil => rfl
  | cons s t ih =>
    rw [sjoin_cons, String.length_append, ih, List.map_cons, List.sum_cons]

theorem dget_dset_self (d : PyDict) (k : String) (v : PyVal) :
    dget (dset d k v) k = some v := by
  induction d with
  | nil => simp [dset, dget]
  | cons e rest ih =>
    obtain ⟨k0, v0⟩ := e
    by_cases h : k0 = k
    · subst h; simp [dset, dget]
    · simp [dset, h, dget, ih]

theorem dget_dset_ne (d : PyDict) (k k2 : String) (v : PyVal) (h : k2 ≠ k) :
    dget (dset d k v) k2 = dget d k2 := by
  induction d with
  | nil =>
    have hk : ¬k = k2 := fun hh => h hh.symm
    simp [dset, dget, hk]
  | cons e rest ih =>
    obtain ⟨k0, v0⟩ := e
    by_cases h0 : k0 = k
    · subst h0
      have hk : ¬k0 = k2 := fun hh => h hh.symm
      simp [dset, dget, hk]
    · simp [dset, h0, dget, ih]

theorem mem_pyStripChars {c : Char} {l : List Char} (h : c ∈ pyStripChars l) :
    c ∈ l := by
  rw [pyStripChars, List.mem_reverse] at h
  have h2 := List.Sublist.mem h (List.dropWhile_sublist isPyWs)
  rw [List.mem_reverse] at h2
  exact List.Sublist.mem h2 (List.dropWhile_sublist isPyWs)

theorem mem_trunc35 {c : Char} {l : List Char} (h : c ∈ trunc35 l) : c ∈ l := by
  rw [trunc35] at h
  by_cases h35 : 35 < l.length
  · rw [if_pos h35] at h; exact List.Sublist.mem h (List.take_sublist 35 l)
  · rwa [if_neg h35] at h

theorem length_trunc35_le (l : List Char) : (trunc35 l).length ≤ 35 := by
  rw [trunc35]
  by_cases h35 : 35 < l.length
  · rw [if_pos h35, List.length_take]; omega
  · rw [if_neg h35]; omega

theorem length_padChars {l : List Char} {n : Nat} (h : l.length ≤ n) :
    (padChars l n).length = n := by
  rw [padChars, List.length_append, List.length_replicate]; omega

theorem mem_padChars {c : Char} {l : List Char} {n : Nat} (h : c ∈ padChars l n) :
    c ∈ l ∨ c = ' ' := by
  rw [padChars, List.mem_append] at h
  rcases h with h | h
  · exact Or.inl h
  · exact Or.inr (List.eq_of_mem_replicate h)

theorem length_clean_name (s : String) : (clean_name s).length = 35 := by
  rw [clean_name]
  by_cases h : s = ""
  · rw [if_pos h, String.length_mk, length_padChars]; simp
  · rw [if_neg h, String.length_mk, length_padChars (length_trunc35_le _)]

theorem allowed_of_mem_clean_name {s : String} {c : Char}
    (h : c ∈ (clean_name s).data) : allowedChar c = true := by
  rw [clean_name] at h
  by_cases he : s = ""
  · rw [if_pos he] at h
    rcases mem_padChars h with h | h
    · simp at h
    · subst h; decide
  · rw [if_neg he] at h
    rcases mem_padChars h with h | h
    · exact List.of_mem_filter (mem_pyStripChars (mem_trunc35 h))
    · subst h; decide

theorem clean_name_py_length {v : PyVal} {s : String}
    (h : clean_name_py v = some s) : s.length = 35 := by
  have h35 : (String.mk (padChars [] 35)).length = 35 := by
    rw [String.length_mk, length_padChars]; simp
  cases v with
  | vstr t =>
    rw [clean_name_py] at h
    split at h
    · have hc : String.mk (padChars [] 35) = s := Option.some_inj.mp h
      rw [← hc]; exact h35
    · have hc : clean_name t = s := Option.some_inj.mp h
      rw [← hc]; exact length_clean_name t
  | vnone =>
    have hc : String.mk (padChars [] 35) = s :=
      Option.some_inj.mp (show some (String.mk (padChars [] 35)) = some s from h)
    rw [← hc]; exact h35
  | vbool b =>
    cases b
    · have hc : String.mk (padChars [] 35) = s :=
        Option.some_inj.mp (show some (String.mk (padChars [] 35)) = some s from h)
      rw [← hc]; exact h35
    · exact absurd (show (none : Option String) = some s from h) (by simp)
  | vint n =>
    unfold clean_name_py at h
    split at h
    · have hc : String.mk (padChars [] 35) = s := Option.some_inj.mp h
      rw [← hc]; exact h35
    · exact absurd h (by simp)
  | vlist xs =>
    unfold clean_name_py at h
    split at h
    · have hc : String.mk (padChars [] 35) = s := Option.some_inj.mp h
      rw [← hc]; exact h35
    · exact absurd h (by simp)
  | vdict xs =>
    unfold clean_name_py at h
    split at h
    · have hc : String.mk (padChars [] 35) = s := Option.some_inj.mp h
      rw [← hc]; exact h35
    · exact absurd h (by simp)

theorem nameFor_length {d : PyDict} {s : String}
    (h : nameFor d = some s) : s.length = 35 := by
  rw [nameFor] at h
  by_cases hu : dHasKey d "user"
  · rw [if_pos hu] at h
    revert h
    cases dgetD d "user" .vnone with
    | vdict ud => exact fun h => clean_name_py_length h
    | vnone => exact fun h => clean_name_py_length h
    | vbool b => exact fun h => clean_name_py_length h
    | vint n => exact fun h => clean_name_py_length h
    | vstr t => exact fun h => clean_name_py_length h
    | vlist xs => exact fun h => clean_name_py_length h
  · rw [if_neg hu] at h
    have : String.mk (padChars [] 35) = s := by simpa using h
    rw [← this, String.length_mk, length_padChars]; simp

theorem natDigitsRevFuel_digits : ∀ (fuel n : Nat),
    ∀ c ∈ natDigitsRevFuel fuel n, c.isDigit = true := by
  intro fuel
  induction fuel with
  | zero => intro n c hc; cases hc
  | succ fuel ih =>
    intro n c hc
    rw [natDigitsRevFuel] at hc
    by_cases h : n = 0
    · rw [if_pos h] at hc; cases hc
    · rw [if_neg h] at hc
      rcases List.mem_cons.mp hc with h1 | h1
      · subst h1
        have hlt : n % 10 < 10 := Nat.mod_lt _ (by omega)
        set m := n % 10 with hm
        interval_cases m <;> decide
      · exact ih (n / 10) c h1

theorem natDigitsRev_digits (n : Nat) : ∀ c ∈ natDigitsRev n, c.isDigit = true :=
  natDigitsRevFuel_digits n n

theorem natDigitsRev_ne_nil {n : Nat} (h : n ≠ 0) : natDigitsRev n ≠ [] := by
  obtain ⟨m, rfl⟩ := Nat.exists_eq_succ_of_ne_zero h
  show natDigitsRevFuel (m + 1) (m + 1) ≠ []
  rw [natDigitsRevFuel, if_neg h]
  simp

theorem natDigitsRevFuel_length_le : ∀ (fuel : Nat) {k n : Nat}, n < 10 ^ k →
    (natDigitsRevFuel fuel n).length ≤ k := by
  intro fuel
  induction fuel with
  | zero => intro k n h; simp [natDigitsRevFuel]
  | succ fuel ih =>
    intro k n h
    rw [natDigitsRevFuel]
    by_cases h0 : n = 0
    · rw [if_pos h0]; simp
    · rw [if_neg h0, List.length_cons]
      rcases k with _ | k2
      · exact absurd h (by simp; omega)
      · have hdiv : n / 10 < 10 ^ k2 := by
          rw [Nat.div_lt_iff_lt_mul (by omega)]
          calc n < 10 ^ (k2 + 1) := h
          _ = 10 ^ k2 * 10 := by ring
        have := ih hdiv
        omega

theorem natDigitsRev_length_le {k n : Nat} (h : n < 10 ^ k) :
    (natDigitsRev n).length ≤ k :=
  natDigitsRevFuel_length_le n h

theorem natDec_digits (n : Nat) : ∀ c ∈ (natDec n).data, c.isDigit = true := by
  rw [natDec]
  by_cases h : n = 0
  · rw [if_pos h]
    intro c hc
    have : c = '0' := by simpa using hc
    subst this; decide
  · rw [if_neg h]
    intro c hc
    have hc2 : c ∈ (natDigitsRev n).reverse := hc
    rw [List.mem_reverse] at hc2
    exact natDigitsRev_digits n c hc2

theorem natDec_data_ne_nil (n : Nat) : (natDec n).data ≠ [] := by
  rw [natDec]
  by_cases h : n = 0
  · rw [if_pos h]; simp
  · rw [if_neg h]
    show (natDigitsRev n).reverse ≠ []
    simp [natDigitsRev_ne_nil h]

theorem natDec_length_le {k n : Nat} (hk : 1 ≤ k) (h : n < 10 ^ k) :
    (natDec n).length ≤ k := by
  rw [natDec]
  by_cases h0 : n = 0
  · rw [if_pos h0]; show ("0" : String).length ≤ k; simp [String.length]; omega
  · rw [if_neg h0, String.length_mk, List.length_reverse]
    exact natDigitsRev_length_le h

theorem idxFmt_length_le {idx : Nat} (h : idx < 100000) :
    (idxFmt idx).length ≤ 5 := by
  rw [idxFmt, String.length_append, String.length_mk, List.length_replicate]
  have h5 : (natDec idx).length ≤ 5 :=
    natDec_length_le (by omega) (by norm_num; omega)
  omega

theorem idxFmt_head_digit (idx : Nat) :
    ∃ c cs, (idxFmt idx).data = c :: cs ∧ c.isDigit = true := by
  rw [idxFmt, String.data_append]
  rcases Nat.eq_zero_or_pos (3 - (natDec idx).length) with hk | hk
  · rw [hk]
    have hne := natDec_data_ne_nil idx
    rcases hd : (natDec idx).data with _ | ⟨c, cs⟩
    · exact absurd hd hne
    · refine ⟨c, cs, by simp [hd], ?_⟩
      exact natDec_digits idx c (by rw [hd]; exact List.mem_cons_self c cs)
  · obtain ⟨k, hk2⟩ := Nat.exists_eq_add_of_lt hk
    rw [hk2]
    refine ⟨'0', List.replicate k '0' ++ (natDec idx).data, ?_, by decide⟩
    show (List.replicate (0 + k + 1) '0' : List Char) ++ _ = _
    rw [Nat.zero_add, List.replicate_succ]
    simp

theorem cellFor_hash (w : String → Nat) (idx : Nat) (r : PyDict) :
    cellFor w idx r "#" = ljust (idxFmt idx) (w "#") := by
  rw [cellFor]; simp

theorem plainCells_head_digit (hs : List String) (w : String → Nat) (idx : Nat)
    (r : PyDict) :
    ∃ c cs, (sjoin (("#" :: hs).map (cellFor w idx r))).data = c :: cs ∧
      c.isDigit = true := by
  rw [List.map_cons, sjoin_cons, String.data_append, cellFor_hash, ljust,
    String.data_append]
  obtain ⟨c, cs, hdata, hdig⟩ := idxFmt_head_digit idx
  refine ⟨c, cs ++ (spaces (w "#" - (idxFmt idx).length)).data ++
    (sjoin (hs.map (cellFor w idx r))).data, ?_, hdig⟩
  rw [hdata]; simp

theorem digit_ne_esc {c : Char} (h : c.isDigit = true) : c ≠ '\x1b' := by
  intro he; rw [he] at h; exact absurd h (by decide)

theorem plainCells_not_escStart (hs : List String) (w : String → Nat) (idx : Nat)
    (r : PyDict) :
    ¬ escStart (sjoin (("#" :: hs).map (cellFor w idx r))) := by
  intro h
  obtain ⟨c, cs, hdata, hdig⟩ := plainCells_head_digit hs w idx r
  rw [escStart, hdata] at h
  have hc : c :: List.take 9 cs = escOn.data := h
  have hhead := congrArg List.head? hc
  have h2 : some c = some '\x1b' := hhead
  exact digit_ne_esc hdig (Option.some_inj.mp h2)

theorem renderRow_highlight {r : PyDict} (headers : List String) (w : String → Nat)
    (idx : Nat) (hr : rowHighlight r = true) :
    renderRow headers w idx r =
      escOn ++ sjoin (headers.map (cellFor w idx r)) ++ escOff := by
  rw [renderRow, if_pos hr]

theorem renderRow_plain {r : PyDict} (headers : List String) (w : String → Nat)
    (idx : Nat) (hr : rowHighlight r = false) :
    renderRow headers w idx r = sjoin (headers.map (cellFor w idx r)) := by
  rw [renderRow, if_neg (by simp [hr])]

theorem stripStyle_wrap (mid : String) :
    stripStyle (escOn ++ mid ++ escOff) = mid := by
  have hdata : (escOn ++ mid ++ escOff).data =
      escOn.data ++ (mid.data ++ escOff.data) := by
    rw [String.data_append, String.data_append, List.append_assoc]
  have hassoc : escOn.data ++ (mid.data ++ escOff.data) =
      (escOn.data ++ mid.data) ++ escOff.data := (List.append_assoc _ _ _).symm
  have hlen : (escOn ++ mid ++ escOff).data.length =
      escOn.data.length + (mid.data.length + escOff.data.length) := by
    rw [hdata, List.length_append, List.length_append]
  have hcond1 : (escOn ++ mid ++ escOff).data.take escOn.data.length =
      escOn.data := by
    rw [hdata]; exact List.take_left _ _
  have hcond2 : (escOn ++ mid ++ escOff).data.drop
      ((escOn ++ mid ++ escOff).data.length - escOff.data.length) =
      escOff.data := by
    rw [hdata, hassoc]
    have heq : (escOn.data ++ mid.data ++ escOff.data).length -
        escOff.data.length = (escOn.data ++ mid.data).length := by
      simp only [List.length_append]; omega
    rw [heq]; exact List.drop_left _ _
  rw [stripStyle, if_pos ⟨hcond1, hcond2⟩, hdata, List.drop_left]
  have heq2 : (escOn.data ++ (mid.data ++ escOff.data)).length -
      escOn.data.length - escOff.data.length = mid.data.length := by
    simp only [List.length_append]; omega
  rw [heq2, List.take_left]

theorem stripStyle_not_esc {s : String} (h : ¬ escStart s) : stripStyle s = s := by
  rw [stripStyle, if_neg]
  intro hc
  exact h hc.1

theorem stripStyle_renderRow (hs : List String) (w : String → Nat) (idx : Nat)
    (r : PyDict) :
    stripStyle (renderRow ("#" :: hs) w idx r) =
      sjoin (("#" :: hs).map (cellFor w idx r)) := by
  by_cases hr : rowHighlight r
  · rw [renderRow_highlight _ _ _ hr, stripStyle_wrap]
  · have hrf : rowHighlight r = false := by simpa using hr
    rw [renderRow_plain _ _ _ hrf]
    exact stripStyle_not_esc (plainCells_not_escStart hs w idx r)

theorem escStart_renderRow (hs : List String) (w : String → Nat) (idx : Nat)
    (r : PyDict) :
    escStart (renderRow ("#" :: hs) w idx r) ↔ rowHighlight r = true := by
  by_cases hr : rowHighlight r
  · refine iff_of_true ?_ hr
    rw [renderRow_highlight _ _ _ hr, escStart,
      String.data_append, String.data_append, List.append_assoc]
    exact List.take_left _ _
  · have hrf : rowHighlight r = false := by simpa using hr
    refine iff_of_false ?_ (by simp [hrf])
    rw [renderRow_plain _ _ _ hrf]
    exact plainCells_not_escStart hs w idx r

theorem wsTokensAux_no_ws (xs : List Char) (hx : ∀ c ∈ xs, isPyWs c = false) :
    ∀ (rest cur : List Char),
      wsTokensAux (xs ++ rest) cur = wsTokensAux rest (xs.reverse ++ cur) := by
  induction xs with
  | nil => intro rest cur; simp
  | cons c cs ih =>
    intro rest cur
    have hc : isPyWs c = false := hx c (List.mem_cons_self c cs)
    rw [List.cons_append, wsTokensAux, if_neg (by simp [hc])]
    have := ih (fun d hd => hx d (List.mem_cons_of_mem c hd)) rest (c :: cur)
    rw [this, List.reverse_cons, List.append_assoc, List.singleton_append]

theorem wsTokensAux_nil_token (xs : List Char) (hx : ∀ c ∈ xs, isPyWs c = false)
    (hne : xs ≠ []) : wsTokensAux xs [] = [xs] := by
  have h1 := wsTokensAux_no_ws xs hx [] []
  rw [List.append_nil] at h1
  rw [h1, wsTokensAux]
  rw [List.append_nil, if_neg (by simp [hne]), List.reverse_reverse]

theorem pySplitWs_two_tokens (a b : String)
    (ha : ∀ c ∈ a.data, isPyWs c = false) (hb : ∀ c ∈ b.data, isPyWs c = false)
    (hna : a.data ≠ []) (hnb : b.data ≠ []) :
    pySplitWs (a ++ " " ++ b) = [a, b] := by
  rw [pySplitWs]
  have hdata : (a ++ " " ++ b).data = a.data ++ (' ' :: b.data) := by
    rw [String.data_append, String.data_append]
    rw [show (" " : String).data = [' '] from rfl, List.append_assoc,
      List.singleton_append]
  rw [hdata, wsTokensAux_no_ws a.data ha (' ' :: b.data) [], List.append_nil,
    wsTokensAux, if_pos (by decide)]
  rw [if_neg (by simp [hna]), List.reverse_reverse]
  rw [wsTokensAux_nil_token b.data hb hnb]
  rfl

theorem digit_not_ws {c : Char} (h : c.isDigit = true) : isPyWs c = false := by
  by_contra hne
  have hw : isPyWs c = true := by revert hne; cases isPyWs c <;> simp
  rw [isPyWs] at hw
  simp only [Bool.or_eq_true, beq_iff_eq] at hw
  rcases hw with ((((h1 | h1) | h1) | h1) | h1) | h1 <;>
    (subst h1; exact absurd h (by decide))

theorem noWs_append {s t : String} (hs : ∀ c ∈ s.data, isPyWs c = false)
    (ht : ∀ c ∈ t.data, isPyWs c = false) :
    ∀ c ∈ (s ++ t).data, isPyWs c = false := by
  intro c hc
  rw [String.data_append, List.mem_append] at hc
  rcases hc with hc | hc
  · exact hs c hc
  · exact ht c hc

theorem noWs_natDec (n : Nat) : ∀ c ∈ (natDec n).data, isPyWs c = false :=
  fun c hc => digit_not_ws (natDec_digits n c hc)

theorem noWs_intDec (n : Int) : ∀ c ∈ (intDec n).data, isPyWs c = false := by
  rw [intDec]
  by_cases h : n < 0
  · rw [if_pos h]
    refine noWs_append ?_ (noWs_natDec _)
    intro c hc
    have : c = '-' := by simpa using hc
    subst this; decide
  · rw [if_neg h]; exact noWs_natDec _

theorem noWs_fmt2 (n : Int) : ∀ c ∈ (fmt2 n).data, isPyWs c = false := by
  rw [fmt2]
  by_cases h : n < 10
  · rw [if_pos h]
    refine noWs_append ?_ (noWs_intDec _)
    intro c hc
    have : c = '0' := by simpa using hc
    subst this; decide
  · rw [if_neg h]; exact noWs_intDec _

theorem noWs_fmt4 (n : Int) : ∀ c ∈ (fmt4 n).data, isPyWs c = false := by
  rw [fmt4]
  refine noWs_append ?_ (noWs_intDec _)
  intro c hc
  have : c = '0' := List.eq_of_mem_replicate (by simpa using hc)
  subst this; decide

theorem intDec_data_ne_nil (n : Int) : (intDec n).data ≠ [] := by
  rw [intDec]
  by_cases h : n < 0
  · rw [if_pos h, String.data_append]
    simp
  · rw [if_neg h]; exact natDec_data_ne_nil _

theorem fmt2_data_ne_nil (n : Int) : (fmt2 n).data ≠ [] := by
  rw [fmt2]
  by_cases h : n < 10
  · rw [if_pos h, String.data_append]; simp
  · rw [if_neg h]; exact intDec_data_ne_nil _

theorem noWs_fmtDate (ts : Int) : ∀ c ∈ (fmtDate ts).data, isPyWs c = false := by
  have hslash : ∀ c ∈ ("/" : String).data, isPyWs c = false := by
    intro c hc
    have hcc : c = '/' := by simpa using hc
    rw [hcc]; decide
  rw [fmtDate]
  exact noWs_append (noWs_append (noWs_append (noWs_append (noWs_fmt2 _) hslash)
    (noWs_fmt2 _)) hslash) (noWs_fmt4 _)

theorem noWs_fmtTime (ts : Int) : ∀ c ∈ (fmtTime ts).data, isPyWs c = false := by
  have hcolon : ∀ c ∈ (":" : String).data, isPyWs c = false := by
    intro c hc
    have hcc : c = ':' := by simpa using hc
    rw [hcc]; decide
  rw [fmtTime]
  exact noWs_append (noWs_append (noWs_append (noWs_append (noWs_fmt2 _) hcolon)
    (noWs_fmt2 _)) hcolon) (noWs_fmt2 _)

theorem fmtDate_data_ne_nil (ts : Int) : (fmtDate ts).data ≠ [] := by
  rw [fmtDate, String.data_append]
  intro h
  rcases List.append_eq_nil.mp h with ⟨h1, _⟩
  rw [String.data_append] at h1
  rcases List.append_eq_nil.mp h1 with ⟨h2, _⟩
  rw [String.data_append] at h2
  rcases List.append_eq_nil.mp h2 with ⟨h3, _⟩
  rw [String.data_append] at h3
  rcases List.append_eq_nil.mp h3 with ⟨h4, _⟩
  exact fmt2_data_ne_nil _ h4

theorem fmtTime_data_ne_nil (ts : Int) : (fmtTime ts).data ≠ [] := by
  rw [fmtTime, String.data_append]
  intro h
  rcases List.append_eq_nil.mp h with ⟨h1, _⟩
  rw [String.data_append] at h1
  rcases List.append_eq_nil.mp h1 with ⟨h2, _⟩
  rw [String.data_append] at h2
  rcases List.append_eq_nil.mp h2 with ⟨h3, _⟩
  rw [String.data_append] at h3
  rcases List.append_eq_nil.mp h3 with ⟨h4, _⟩
  exact fmt2_data_ne_nil _ h4

theorem human_time_vint {n : Int} (hn : n ≠ 0) (hv : validEpoch n = true) :
    human_time (.vint n) = fmtDate n ++ " " ++ fmtTime n := by
  have h0 : pyEqZero (.vint n) = false := by
    simp [pyEqZero, hn]
  show (if pyEqZero (.vint n) = true then "-"
    else match pyNumVal (.vint n) with
      | some m => if validEpoch m = true then fmtDateTime m else pyStr (.vint n)
      | none => pyStr (.vint n)) = _
  rw [h0]
  show (if validEpoch n = true then fmtDateTime n else pyStr (.vint n)) = _
  rw [if_pos hv]
  rfl

theorem dHasKey_of_dget {d : PyDict} {k : String} {v : PyVal}
    (h : dget d k = some v) : dHasKey d k = true := by
  induction d with
  | nil => simp [dget] at h
  | cons e rest ih =>
    obtain ⟨k0, v0⟩ := e
    rw [dget] at h
    rw [dHasKey]
    by_cases hk : k0 = k
    · simp [hk]
    · rw [if_neg hk] at h
      simp [hk, ih h]

theorem dget_stepViaHop_ne (f : PyDict) (k : String) (h : k ≠ "viaHop") :
    dget (stepViaHop f) k = dget f k := by
  rw [stepViaHop]; exact dget_dset_ne _ _ _ _ h

theorem dget_stepSnr_ne (f : PyDict) (k : String) (h : k ≠ "snr") :
    dget (stepSnr f) k = dget f k := by
  rw [stepSnr]; split
  · exact dget_dset_ne _ _ _ _ h
  · rfl

theorem normalize_node_parts {node : PyVal} {row : PyDict}
    (h : normalize_node node = some row) :
    ∃ flat flat1 nm,
      flatten_dict (coerceRecord node) = some flat ∧
      stepLastHeard (coerceRecord node) flat = some flat1 ∧
      nameFor (coerceRecord node) = some nm ∧
      row = stepSnr (stepViaHop (dset flat1 "name" (.vstr nm))) := by
  simp only [normalize_node] at h
  rcases hfl : flatten_dict (coerceRecord node) with _ | flat
  · rw [hfl] at h; simp at h
  · rw [hfl] at h
    have h2 : (match stepLastHeard (coerceRecord node) flat with
      | none => none
      | some flat1 =>
        match nameFor (coerceRecord node) with
        | none => none
        | some nm =>
          some (stepSnr (stepViaHop (dset flat1 "name" (PyVal.vstr nm))))) =
        some row := h
    rcases hlh : stepLastHeard (coerceRecord node) flat with _ | flat1
    · rw [hlh] at h2; simp at h2
    · rw [hlh] at h2
      rcases hnm : nameFor (coerceRecord node) with _ | nm
      · rw [hnm] at h2; simp at h2
      · rw [hnm] at h2
        exact ⟨flat, flat1, nm, rfl, hlh, rfl, (Option.some_inj.mp h2).symm⟩

theorem normalize_node_name {node : PyVal} {row : PyDict}
    (h : normalize_node node = some row) :
    ∃ s, dget row "name" = some (.vstr s) ∧ s.length = 35 := by
  obtain ⟨flat, flat1, nm, hfl, hlh, hnm, hrow⟩ := normalize_node_parts h
  refine ⟨nm, ?_, nameFor_length hnm⟩
  rw [hrow, dget_stepSnr_ne _ _ (by decide), dget_stepViaHop_ne _ _ (by decide),
    dget_dset_self]

theorem stepLastHeard_of_vint {d flat : PyDict} {n : Int}
    (hget : dget d "lastHeard" = some (.vint n)) (hn : n ≠ 0)
    (hv : validEpoch n = true) :
    stepLastHeard d flat =
      some (dset (dset flat "lastHeard_human" (.vstr (fmtDateTime n)))
        "lastHeard_human" (.vstr (fmtTime n ++ " " ++ fmtDate n))) := by
  have hk : dHasKey d "lastHeard" = true := dHasKey_of_dget hget
  have hdgD : dgetD d "lastHeard" .vnone = .vint n := by
    rw [dgetD, hget]; rfl
  simp only [stepLastHeard, if_pos hk, hdgD, human_time_vint hn hv]
  rw [pySplitWs_two_tokens _ _ (noWs_fmtDate n) (noWs_fmtTime n)
    (fmtDate_data_ne_nil n) (fmtTime_data_ne_nil n)]
  rfl

theorem sortRows_recency_sorted (rows : List PyDict) :
    List.Pairwise (fun a b => ts_key b ≤ ts_key a) (sortRows rows false) := by
  haveI : IsTotal PyDict (fun a b => ts_key b ≤ ts_key a) :=
    ⟨fun a b => le_total (ts_key b) (ts_key a)⟩
  haveI : IsTrans PyDict (fun a b => ts_key b ≤ ts_key a) :=
    ⟨fun _ _ _ h1 h2 => le_trans h2 h1⟩
  rw [sortRows, if_neg (by simp)]
  exact List.sorted_insertionSort _ rows

theorem sortRows_recency_perm (rows : List PyDict) :
    (sortRows rows false).Perm rows := by
  rw [sortRows, if_neg (by simp)]
  exact List.perm_insertionSort _ rows

theorem sortRows_hop_sorted (rows : List PyDict) :
    List.Pairwise (fun a b => hop_key a ≤ hop_key b) (sortRows rows true) := by
  haveI : IsTotal PyDict (fun a b => hop_key a ≤ hop_key b) :=
    ⟨fun a b => le_total (hop_key a) (hop_key b)⟩
  haveI : IsTrans PyDict (fun a b => hop_key a ≤ hop_key b) :=
    ⟨fun _ _ _ h1 h2 => le_trans h1 h2⟩
  rw [sortRows, if_pos rfl]
  exact List.sorted_insertionSort _ rows

theorem sortRows_hop_perm (rows : List PyDict) :
    (sortRows rows true).Perm rows := by
  rw [sortRows, if_pos rfl]
  exact List.perm_insertionSort _ rows

theorem sortRows_perm (rows : List PyDict) (s : Bool) :
    (sortRows rows s).Perm rows := by
  cases s
  · exact sortRows_recency_perm rows
  · exact sortRows_hop_perm rows

theorem length_normalizeAll : ∀ {nodes : List PyVal} {rows0 : List PyDict},
    normalizeAll nodes = some rows0 → rows0.length = nodes.length := by
  intro nodes
  induction nodes with
  | nil =>
    intro rows0 h
    have h2 : some ([] : List PyDict) = some rows0 := h
    rw [← Option.some_inj.mp h2]; rfl
  | cons x xs ih =>
    intro rows0 h
    rw [normalizeAll] at h
    rcases h1 : normalize_node x with _ | r <;> rw [h1] at h
    · simp at h
    · rcases h2 : normalizeAll xs with _ | rs <;> rw [h2] at h
      · simp at h
      · have hlen := ih h2
        rw [← Option.some_inj.mp h]
        simp [List.length_cons, hlen]

theorem mem_normalizeAll : ∀ {nodes : List PyVal} {rows0 : List PyDict},
    normalizeAll nodes = some rows0 →
    ∀ r ∈ rows0, ∃ node, normalize_node node = some r := by
  intro nodes
  induction nodes with
  | nil =>
    intro rows0 h r hr
    have h2 : some ([] : List PyDict) = some rows0 := h
    rw [← Option.some_inj.mp h2] at hr
    cases hr
  | cons x xs ih =>
    intro rows0 h r hr
    rw [normalizeAll] at h
    rcases h1 : normalize_node x with _ | r0 <;> rw [h1] at h
    · simp at h
    · rcases h2 : normalizeAll xs with _ | rs <;> rw [h2] at h
      · simp at h
      · rw [← Option.some_inj.mp h] at hr
        rcases List.mem_cons.mp hr with hr | hr
        · exact ⟨x, by rw [h1, hr]⟩
        · exact ih h2 r hr

theorem length_enumFrom {α : Type} : ∀ (l : List α) (n : Nat),
    (enumFrom n l).length = l.length := by
  intro l
  induction l with
  | nil => intro n; rfl
  | cons x xs ih => intro n; rw [enumFrom, List.length_cons, List.length_cons, ih]

theorem mem_enumFrom {α : Type} : ∀ {l : List α} {n idx : Nat} {x : α},
    (idx, x) ∈ enumFrom n l → x ∈ l ∧ n ≤ idx ∧ idx < n + l.length := by
  intro l
  induction l with
  | nil => intro n idx x h; cases h
  | cons y ys ih =>
    intro n idx x h
    rw [enumFrom] at h
    rcases List.mem_cons.mp h with h | h
    · have h1 : idx = n ∧ x = y := by
        constructor
        · exact congrArg Prod.fst h
        · exact congrArg Prod.snd h
      obtain ⟨rfl, rfl⟩ := h1
      exact ⟨List.mem_cons_self _ _, le_refl _, by simp⟩
    · obtain ⟨hm, hle, hlt⟩ := ih h
      refine ⟨List.mem_cons_of_mem _ hm, by omega, by simp [List.length_cons]; omega⟩

theorem le_maxContentLen {rows : List PyDict} {r : PyDict} (hr : r ∈ rows)
    (h : String) :
    (pyStr (dgetD r h (.vstr ""))).length ≤ maxContentLen rows h := by
  rw [maxContentLen]
  induction rows with
  | nil => cases hr
  | cons x xs ih =>
    rw [List.map_cons, List.foldr_cons]
    rcases List.mem_cons.mp hr with hr | hr
    · rw [hr]; exact le_max_left _ _
    · exact le_trans (ih hr) (le_max_right _ _)

theorem colWidth_hash (rows : List PyDict) : colWidth rows "#" = 5 := by
  rw [colWidth, if_pos rfl]

theorem colWidth_name (rows : List PyDict) : colWidth rows "name" = 35 := by
  rw [colWidth, if_neg (by decide), if_pos rfl]

theorem colWidth_other {h : String} (rows : List PyDict) (h1 : h ≠ "#")
    (h2 : h ≠ "name") :
    colWidth rows h = max (maxContentLen rows h) h.length + 2 := by
  rw [colWidth, if_neg h1, if_neg h2]

theorem length_headerCell (rows : List PyDict) (h : String) :
    (ljust h (colWidth rows h)).length = colWidth rows h := by
  apply length_ljust_of_le
  by_cases h1 : h = "#"
  · rw [h1, colWidth_hash]; decide
  · by_cases h2 : h = "name"
    · rw [h2, colWidth_name]; decide
    · rw [colWidth_other rows h1 h2]
      exact le_trans (le_max_right _ _) (Nat.le_add_right _ 2)

theorem length_cellFor {rows : List PyDict} {r : PyDict} (hr : r ∈ rows)
    (hname : ∃ s, dget r "name" = some (.vstr s) ∧ s.length = 35)
    {idx : Nat} (hidx : idx < 100000) (h : String) :
    (cellFor (colWidth rows) idx r h).length = colWidth rows h := by
  by_cases h1 : h = "#"
  · subst h1
    rw [cellFor, if_pos rfl, colWidth_hash]
    exact length_ljust_of_le (le_trans (idxFmt_length_le hidx) (by norm_num))
  · by_cases h2 : h = "snr"
    · subst h2
      by_cases h3 : pyEqStr (dgetD r "snr" (.vstr "")) "" = true
      · rw [cellFor, if_neg h1, if_neg (by simp [h3])]
        rw [colWidth_other rows (by decide) (by decide)]
        apply length_ljust_of_le
        exact le_trans (le_trans (le_maxContentLen hr "snr") (le_max_left _ _))
          (Nat.le_add_right _ 2)
      · have h3f : pyEqStr (dgetD r "snr" (.vstr "")) "" = false := by
          simpa using h3
        rw [cellFor, if_neg h1, if_pos (by simp [h3f])]
        rw [colWidth_other rows (by decide) (by decide)]
        apply length_ljust_of_le
        rw [String.length_append]
        have hle := le_maxContentLen hr "snr"
        have hsp : ("  " : String).length = 2 := by decide
        rw [hsp]
        have hmx := le_max_left (maxContentLen rows "snr") ("snr" : String).length
        omega
    · rw [cellFor, if_neg h1, if_neg (by simp [h2])]
      by_cases h4 : h = "name"
      · obtain ⟨s, hdg, hlen⟩ := hname
        rw [h4, colWidth_name]
        apply length_ljust_of_le
        rw [dgetD, hdg]
        show (pyStr (.vstr s)).length ≤ 35
        rw [pyStr, hlen]
      · rw [colWidth_other rows h1 h4]
        apply length_ljust_of_le
        exact le_trans (le_trans (le_maxContentLen hr h) (le_max_left _ _))
          (Nat.le_add_right _ 2)

theorem length_sjoin_map (headers : List String) (f : String → String)
    (w : String → Nat) (hf : ∀ h ∈ headers, (f h).length = w h) :
    (sjoin (headers.map f)).length = (headers.map w).sum := by
  induction headers with
  | nil => rfl
  | cons x xs ih =>
    rw [List.map_cons, sjoin_cons, String.length_append,
      hf x (List.mem_cons_self x xs), List.map_cons, List.sum_cons,
      ih (fun h hh => hf h (List.mem_cons_of_mem _ hh))]

theorem headersFor_head (rows : List PyDict) (c : Bool) :
    ∃ hs, headersFor rows c = "#" :: hs := by
  rw [headersFor]
  by_cases hc : c = true
  · rw [if_pos hc]; exact ⟨_, rfl⟩
  · rw [if_neg hc]; exact ⟨_, rfl⟩

theorem print_table_eq {nodes : List PyVal} {rows0 : List PyDict} (c s : Bool)
    (h : normalizeAll nodes = some rows0) :
    print_table nodes c s =
      some ("" ::
        sjoin ((headersFor rows0 c).map
          (fun hd => ljust hd (colWidth (sortRows rows0 s) hd))) ::
        String.mk (List.replicate (sjoin ((headersFor rows0 c).map
          (fun hd => ljust hd (colWidth (sortRows rows0 s) hd)))).length '=') ::
        (enumFrom 1 (sortRows rows0 s)).map
          (fun p => renderRow (headersFor rows0 c) (colWidth (sortRows rows0 s))
            p.fst p.snd)) := by
  simp only [print_table, h]

theorem stepLastHeard_absent {d flat : PyDict}
    (h : dHasKey d "lastHeard" = false) : stepLastHeard d flat = some flat := by
  rw [stepLastHeard, if_neg (by simp [h])]

/-! ## Claim theorems -/

/-- C1: the claim says `normalize_node` returns a flat row without raising for
every record, including one whose `lastHeard` field is `0`.  The code violates
this: on the record `{"lastHeard": 0}`, `human_time` returns the single-token
placeholder `-`, and the re-ordering `tmp[1] + " " + tmp[0]` raises
`IndexError` (modelled as `none`), aborting the whole batch. -/
theorem normalize_node_lastHeard_zero_raises :
    normalize_node (.vdict [("lastHeard", .vint 0)]) = none := rfl

/-- C2 counterexample: on the empty snapshot the output has a leading blank
line (from `print("")`) and therefore three lines, not just the claimed
header and separator. -/
theorem print_table_counterexample_blank_line :
    (print_table [] true false).map (fun l => (l.head?, l.length)) =
      some (some "", 3) := rfl

/-- C2 (amended): whenever `print_table` produces output (that is, every
record normalizes), it writes one leading blank line, then exactly one header
line, one separator line of `=` repeated to the header length, and one line
per input record, in that order, and nothing else. -/
theorem print_table_output_shape (nodes : List PyVal) (c s : Bool)
    (out : List String) (h : print_table nodes c s = some out) :
    ∃ hl dl, out = "" :: hl :: String.mk (List.replicate hl.length '=') :: dl ∧
      dl.length = nodes.length := by
  rcases hna : normalizeAll nodes with _ | rows0
  · rw [print_table, hna] at h
    exact absurd h (by simp)
  · rw [print_table_eq c s hna] at h
    obtain rfl := Option.some_inj.mp h
    refine ⟨sjoin ((headersFor rows0 c).map
        (fun hd => ljust hd (colWidth (sortRows rows0 s) hd))),
      (enumFrom 1 (sortRows rows0 s)).map
        (fun p => renderRow (headersFor rows0 c) (colWidth (sortRows rows0 s))
          p.fst p.snd), rfl, ?_⟩
    rw [List.length_map, length_enumFrom, (sortRows_perm rows0 s).length_eq,
      length_normalizeAll hna]

/-- C3 counterexample: on a record with no `lastHeard` field the normalized
row has no `lastHeard_human` field at all, not the claimed placeholder `-`. -/
theorem lastHeard_absent_counterexample :
    (normalize_node (.vdict [])).map (fun r => dget r "lastHeard_human") =
      some none := rfl

/-- C3 (amended): when a record's `lastHeard` is present with a nonzero
integer value in `datetime` range and normalization succeeds, the row's
`lastHeard_human` is the local rendering re-ordered to
`HH:MM:SS DD/MM/YYYY`; when `lastHeard` is absent (and flattening produced
no colliding `lastHeard_human` key), the row has no `lastHeard_human` field
rather than the placeholder `-` (a present value of `0` makes normalization
raise, see C1). -/
theorem lastHeard_human_field_semantics :
    (∀ (d : List (String × PyVal)) (n : Int) (row : PyDict),
      dget (coerceRecord (.vdict d)) "lastHeard" = some (.vint n) → n ≠ 0 →
      validEpoch n = true → normalize_node (.vdict d) = some row →
      dget row "lastHeard_human" =
        some (.vstr (fmtTime n ++ " " ++ fmtDate n))) ∧
    (∀ (d : List (String × PyVal)) (flat row : PyDict),
      dHasKey (coerceRecord (.vdict d)) "lastHeard" = false →
      flatten_dict (coerceRecord (.vdict d)) = some flat →
      dget flat "lastHeard_human" = none →
      normalize_node (.vdict d) = some row →
      dget row "lastHeard_human" = none) := by
  constructor
  · intro d n row hget hn hv hrow
    obtain ⟨flat, flat1, nm, hfl, hlh, hnm, hr⟩ := normalize_node_parts hrow
    rw [stepLastHeard_of_vint hget hn hv] at hlh
    obtain rfl := Option.some_inj.mp hlh
    rw [hr, dget_stepSnr_ne _ _ (by decide), dget_stepViaHop_ne _ _ (by decide),
      dget_dset_ne _ _ _ _ (by decide), dget_dset_self]
  · intro d flat row hkey hfl2 hflat hrow
    obtain ⟨flat0, flat1, nm, hfl, hlh, hnm, hr⟩ := normalize_node_parts hrow
    have hfeq : flat0 = flat := by
      rw [hfl] at hfl2; exact Option.some_inj.mp hfl2
    rw [hfeq] at hlh
    rw [stepLastHeard_absent hkey] at hlh
    obtain rfl := Option.some_inj.mp hlh
    rw [hr, dget_stepSnr_ne _ _ (by decide), dget_stepViaHop_ne _ _ (by decide),
      dget_dset_ne _ _ _ _ (by decide)]
    exact hflat

/-- C4: `clean_name` always returns a string of exactly 35 characters, and
every character of the result is an ASCII letter, digit, space, underscore,
hyphen, or period (the padding spaces included). -/
theorem clean_name_fixed_width_allowed (s : String) :
    (clean_name s).length = 35 ∧ ∀ c ∈ (clean_name s).data, allowedChar c = true :=
  ⟨length_clean_name s, fun _ hc => allowed_of_mem_clean_name hc⟩

/-- C5: without the sort-by-hop flag the rendered row order is a permutation
of the normalized rows that is non-increasing in the recency key `ts_key`,
which keys `-`, blank and unparsable `lastHeard_human` values as epoch 0. -/
theorem sort_recency_descending_key (rows : List PyDict) :
    List.Pairwise (fun a b => ts_key b ≤ ts_key a) (sortRows rows false) ∧
      (sortRows rows false).Perm rows :=
  ⟨sortRows_recency_sorted rows, sortRows_recency_perm rows⟩

/-- C6: with the sort-by-hop flag the rendered row order is a permutation of
the normalized rows that is non-decreasing in the hop key `hop_key`, which
keys missing or non-numeric `hopsAway` values as 0. -/
theorem sort_hop_ascending_key (rows : List PyDict) :
    List.Pairwise (fun a b => hop_key a ≤ hop_key b) (sortRows rows true) ∧
      (sortRows rows true).Perm rows :=
  ⟨sortRows_hop_sorted rows, sortRows_hop_perm rows⟩

/-- C7: the computed column width agrees with the specification formula
`max(header length, max content length) + 2` with the fixed exceptions `#`
(width 5) and `name` (width 35); in particular a `snr` column over contents
`"1.23"` and `""` gets width 6. -/
theorem column_width_formula :
    (∀ (rows : List PyDict) (h : String), colWidth rows h = specColWidth rows h) ∧
      colWidth [[("snr", PyVal.vstr "1.23")], [("snr", PyVal.vstr "")]] "snr" = 6 := by
  constructor
  · intro rows h
    rw [colWidth, specColWidth]
    by_cases h1 : h = "#"
    · rw [if_pos h1, if_pos h1]
    · rw [if_neg h1, if_neg h1]
      by_cases h2 : h = "name"
      · rw [if_pos h2, if_pos h2]
      · rw [if_neg h2, if_neg h2, Nat.max_comm]
  · rfl

/-- C8: a rendered data line is wrapped in the exact escape opening
`\x1b[42m\x1b[97m` and closing `\x1b[0m` if and only if the row's
`hopsAway`, stringified with default `"0"`, equals `"0"` and its `snr`
value is non-empty; in particular any row whose `hopsAway` is `"1"` (or any
other non-`"0"` string) is printed unstyled regardless of `snr`. -/
theorem highlight_escape_iff (hs : List String) (w : String → Nat) (idx : Nat)
    (r : PyDict) :
    (∃ mid, renderRow ("#" :: hs) w idx r = escOn ++ mid ++ escOff) ↔
      (pyStr (dgetD r "hopsAway" (.vstr "0")) = "0" ∧
        pyEqStr (dgetD r "snr" (.vstr "")) "" = false) := by
  have hiff := escStart_renderRow hs w idx r
  constructor
  · intro hmid
    obtain ⟨mid, hmid⟩ := hmid
    have hesc : escStart (renderRow ("#" :: hs) w idx r) := by
      rw [hmid, escStart, String.data_append, String.data_append,
        List.append_assoc]
      exact List.take_left _ _
    have hb := hiff.mp hesc
    rw [rowHighlight] at hb
    simp only [Bool.and_eq_true, beq_iff_eq, Bool.not_eq_true'] at hb
    exact hb
  · intro hb
    have hbb : rowHighlight r = true := by
      rw [rowHighlight]
      simp only [Bool.and_eq_true, beq_iff_eq, Bool.not_eq_true']
      exact hb
    exact ⟨_, renderRow_highlight _ _ _ hbb⟩

/-- C9: the full normalize-and-render pipeline is a deterministic function of
the snapshot and the two flags: equal inputs give byte-identical output. -/
theorem pipeline_deterministic (n1 n2 : List PyVal) (c1 c2 s1 s2 : Bool)
    (hn : n1 = n2) (hc : c1 = c2) (hs : s1 = s2) :
    print_table n1 c1 s1 = print_table n2 c2 s2 := by
  rw [hn, hc, hs]

/-- C10: for a snapshot of fewer than 100000 records, the header line's
length is the sum of the computed column widths, and every data line, after
removing the ANSI escape pair when present, has exactly the header line's
length. -/
theorem data_line_width_matches_header (nodes : List PyVal) (c s : Bool)
    (rows0 : List PyDict) (out : List String) (hl sep : String)
    (dl : List String) (hna : normalizeAll nodes = some rows0)
    (hpt : print_table nodes c s = some out) (hcount : nodes.length < 100000)
    (hout : out = "" :: hl :: sep :: dl) :
    hl.length = ((headersFor rows0 c).map (colWidth (sortRows rows0 s))).sum ∧
      ∀ line ∈ dl, (stripStyle line).length = hl.length := by
  rw [print_table_eq c s hna] at hpt
  have hx := Option.some_inj.mp hpt
  rw [hout] at hx
  injection hx with h0 hx1
  injection hx1 with hHL hx2
  injection hx2 with hSEP hDL
  have hHLlen : hl.length =
      ((headersFor rows0 c).map (colWidth (sortRows rows0 s))).sum := by
    rw [← hHL]
    exact length_sjoin_map _ _ _
      (fun h _ => length_headerCell (sortRows rows0 s) h)
  refine ⟨hHLlen, ?_⟩
  intro line hline
  rw [← hDL] at hline
  obtain ⟨p, hp, hpline⟩ := List.mem_map.mp hline
  obtain ⟨idx, r⟩ := p
  obtain ⟨hrmem, hge, hlt⟩ := mem_enumFrom hp
  obtain ⟨hs2, hhead⟩ := headersFor_head rows0 c
  rw [← hpline, hhead, stripStyle_renderRow, ← hhead, hHLlen]
  apply length_sjoin_map
  intro h _
  apply length_cellFor hrmem
  · have hr0 : r ∈ rows0 := (sortRows_perm rows0 s).mem_iff.mp hrmem
    obtain ⟨node, hnode⟩ := mem_normalizeAll hna r hr0
    exact normalize_node_name hnode
  · have hR : (sortRows rows0 s).length = rows0.length :=
      (sortRows_perm rows0 s).length_eq
    have h0len : rows0.length = nodes.length := length_normalizeAll hna
    omega

/-- Witness for C2 at the one-record snapshot `[{}]`. -/
theorem print_table_output_shape_witness :
    ∃ hl dl, ((print_table [PyVal.vdict []] true false).getD []) =
      "" :: hl :: String.mk (List.replicate hl.length '=') :: dl ∧
      dl.length = 1 :=
  print_table_output_shape [PyVal.vdict []] true false
    ((print_table [PyVal.vdict []] true false).getD []) rfl

/-- Witness for C3 at the record `{"lastHeard": 1700000000}`. -/
theorem lastHeard_human_field_semantics_witness :
    dget ((normalize_node (.vdict [("lastHeard", .vint 1700000000)])).getD [])
      "lastHeard_human" =
      some (.vstr (fmtTime 1700000000 ++ " " ++ fmtDate 1700000000)) :=
  lastHeard_human_field_semantics.1 [("lastHeard", .vint 1700000000)] 1700000000
    ((normalize_node (.vdict [("lastHeard", .vint 1700000000)])).getD [])
    rfl (by decide) rfl rfl

/-- Witness for C4 at the name from the specification's worked example. -/
theorem clean_name_fixed_width_allowed_witness :
    (clean_name "Alice Station!!").length = 35 ∧ allowedChar 'A' = true :=
  ⟨(clean_name_fixed_width_allowed "Alice Station!!").1,
   (clean_name_fixed_width_allowed "Alice Station!!").2 'A' (by decide)⟩

/-- Witness for C8 at a direct row with non-empty snr. -/
theorem highlight_escape_iff_witness :
    ∃ mid, renderRow ("#" :: ["snr"]) (fun _ => 5) 1
      [("hopsAway", PyVal.vstr "0"), ("snr", PyVal.vstr "5.00")] =
      escOn ++ mid ++ escOff :=
  (highlight_escape_iff ["snr"] (fun _ => 5) 1
    [("hopsAway", PyVal.vstr "0"), ("snr", PyVal.vstr "5.00")]).mpr ⟨rfl, rfl⟩

/-- Witness for C9 at the one-record snapshot `[{}]`. -/
theorem pipeline_deterministic_witness :
    print_table [PyVal.vdict []] true false =
      print_table [PyVal.vdict []] true false :=
  pipeline_deterministic [PyVal.vdict []] [PyVal.vdict []] true true false false
    rfl rfl rfl

/-- Witness for C10 at the one-record snapshot `[{"snr": "5"}]`, whose data
line is highlighted. -/
theorem data_line_width_matches_header_witness :
    (stripStyle ((((print_table [PyVal.vdict [("snr", PyVal.vstr "5")]] true
        false).getD []).drop 3).headD "")).length =
      ((((print_table [PyVal.vdict [("snr", PyVal.vstr "5")]] true
        false).getD []).drop 1).headD "").length := by
  have h := data_line_width_matches_header
    [PyVal.vdict [("snr", PyVal.vstr "5")]] true false
    ((normalizeAll [PyVal.vdict [("snr", PyVal.vstr "5")]]).getD [])
    ((print_table [PyVal.vdict [("snr", PyVal.vstr "5")]] true false).getD [])
    ((((print_table [PyVal.vdict [("snr", PyVal.vstr "5")]] true
      false).getD []).drop 1).headD "")
    ((((print_table [PyVal.vdict [("snr", PyVal.vstr "5")]] true
      false).getD []).drop 2).headD "")
    (((print_table [PyVal.vdict [("snr", PyVal.vstr "5")]] true
      false).getD []).drop 3)
    rfl rfl (by decide) rfl
  exact h.2 ((((print_table [PyVal.vdict [("snr", PyVal.vstr "5")]] true
    false).getD []).drop 3).headD "") (by decide)
